import Mathlib

/-!
Verification of the Sudoku constraint-propagation and backtracking solver
(files `sudoku.py`, `tests.py`).

The model is a shallow embedding of the Python code:

* a `Board` (Python: the dict `self.sudoku`) is a partial map from cells to
  digits, modelled as `Cell → Option ℕ`; the Python dict only ever holds keys
  inside the 9×9 grid, so key-count questions are phrased over the grid cells;
* a possibility grid (Python: `List[List[Set[str]]]`) is `Cell → Finset ℕ`;
  Python digit strings 1-9 are modelled as the naturals 1-9 (the string
  order used by `min(...)` agrees with the numeric order);
* the mutually recursive `assign`/`eliminate` cascade and the `search`
  recursion carry an explicit fuel argument; `Res.fuelOut` marks fuel
  exhaustion (and, in the one dead branch of `search`, the non-ValueError
  crash that Python would raise there).  `Res.contra` is the image of the
  `ValueError` contradictions that Python uses as control flow;
* Python iterates several hash sets whose order is unspecified
  (`digits_to_discard`, the neighbor set, the hint keys, the candidate set in
  `search`).  The model fixes definite enumerations (sorted digits, a fixed
  neighbor list, row-major hint order); every theorem below except the one
  about candidate ordering is insensitive to these choices, and the candidate
  ordering claim is settled as a divergence between spec and code.
-/

namespace SudokuModel

/-- A cell of the grid: a (row, column) pair of naturals. -/
abbrev Cell := ℕ × ℕ

/-- The board: Python's `self.sudoku` dict, a partial map cell → digit. -/
abbrev Board := Cell → Option ℕ

/-- The possibility grid: Python's `possibilities`, a set of digits per cell. -/
abbrev Poss := Cell → Finset ℕ

/-- The mutable pair `(possibilities, solution)` threaded through the engine. -/
abbrev EState := Poss × Board

/-- Result of a call that can raise: `ok` is a normal return, `contra` is the
`ValueError` used as backtracking control flow, `fuelOut` marks exhaustion of
the explicit fuel (never reached with the fuel bounds proved below). -/
inductive Res (α : Type) : Type
  | ok (a : α)
  | contra
  | fuelOut

/-- Python `all_row_col_combinations`: the 81 grid coordinates in row-major
order. -/
def gridCells : List Cell :=
  (List.range 9).flatMap fun r => (List.range 9).map fun c => (r, c)

/-- The grid coordinates as a finite set. -/
def gridFinset : Finset Cell := gridCells.toFinset

/-- The full digit set 1..9 (Python: `{"1", ..., "9"}`). -/
def digitSet : Finset ℕ := {1, 2, 3, 4, 5, 6, 7, 8, 9}

/-- Row-peer neighborhood of a cell (first set built by `find_neighbors`):
the squares `(row, i)` for `i ≠ col`. -/
def rowNeighborhood (r c : ℕ) : List Cell :=
  ((List.range 9).filter fun i => i ≠ c).map fun i => (r, i)

/-- Column-peer neighborhood (second set built by `find_neighbors`). -/
def colNeighborhood (r c : ℕ) : List Cell :=
  ((List.range 9).filter fun i => i ≠ r).map fun i => (i, c)

/-- Block-peer neighborhood (third set built by `find_neighbors`): the 3×3
window from `(row // 3 * 3, col // 3 * 3)`, excluding the cell itself. -/
def blockNeighborhood (r c : ℕ) : List Cell :=
  (((List.range 3).flatMap fun i =>
      (List.range 3).map fun j => (r / 3 * 3 + i, c / 3 * 3 + j)).filter
    fun q => q ≠ (r, c))

/-- The three neighborhoods in the order `find_neighbors` returns them:
row peers, column peers, block peers. -/
def neighborhoods (r c : ℕ) : List (List Cell) :=
  [rowNeighborhood r c, colNeighborhood r c, blockNeighborhood r c]

/-- The full neighbor set of a cell as a duplicate-free list (Python builds
the set `neighbors`; a set has no duplicates, and its iteration order is
unspecified, so the model fixes this enumeration). -/
def neighborList (r c : ℕ) : List Cell :=
  (rowNeighborhood r c ++ colNeighborhood r c ++ blockNeighborhood r c).dedup

/-- Python `find_neighbors(row, col)`: the pair of the full neighbor set and
the list of the three neighborhoods, as finite sets. -/
def findNeighbors (r c : ℕ) : Finset Cell × List (Finset Cell) :=
  ((rowNeighborhood r c ++ colNeighborhood r c ++ blockNeighborhood r c).toFinset,
    [(rowNeighborhood r c).toFinset, (colNeighborhood r c).toFinset,
      (blockNeighborhood r c).toFinset])

/-- Point update of a possibility grid (Python mutates `possibilities[row][col]`). -/
def updP (p : Poss) (q : Cell) (v : Finset ℕ) : Poss :=
  fun q' => if q' = q then v else p q'

/-- Point update of a board (Python: `solution[(row, col)] = digit`). -/
def updS (s : Board) (q : Cell) (d : ℕ) : Board :=
  fun q' => if q' = q then some d else s q'

mutual

/-- Python `Sudoku.eliminate(row, col, digit, possibilities, solution)`:
remove `digit` from the cell's possibility set (no-op when absent), raise on
an emptied set, propagate a naked single to all neighbors, then scan the three
neighborhoods for hidden singles, raising when a neighborhood has no square
left for `digit`. -/
def eliminate : ℕ → ℕ → ℕ → ℕ → EState → Res EState
  | 0, _, _, _, _ => .fuelOut
  | f + 1, r, c, d, st =>
    if d ∈ st.1 (r, c) then
      let p1 := updP st.1 (r, c) (st.1 (r, c) \ {d})
      if (p1 (r, c)).card = 0 then .contra
      else
        match (if (p1 (r, c)).card = 1 then
                 elimNeighbors f (neighborList r c) r c (p1, st.2)
               else .ok (p1, st.2)) with
        | .ok st2 => scanNeighborhoods f (neighborhoods r c) d st2
        | .contra => .contra
        | .fuelOut => .fuelOut
    else .ok st
termination_by f _ _ _ _ => (f, 0)

/-- The naked-single loop of `eliminate`: for each neighbor, eliminate
`min(possibilities[row][col])`, re-reading the minimum of the current set on
every iteration exactly as the Python loop does (`min` of an empty Python set
raises a ValueError, modelled by `contra`). -/
def elimNeighbors : ℕ → List Cell → ℕ → ℕ → EState → Res EState
  | _, [], _, _, st => .ok st
  | f, n :: ns, r, c, st =>
    if h : (st.1 (r, c)).Nonempty then
      match eliminate f n.1 n.2 ((st.1 (r, c)).min' h) st with
      | .ok st' => elimNeighbors f ns r c st'
      | .contra => .contra
      | .fuelOut => .fuelOut
    else .contra
termination_by f ns _ _ _ => (f, ns.length + 1)

/-- The hidden-single loop of `eliminate`: for each neighborhood, collect the
squares that can still hold `digit`; zero such squares is a contradiction, and
a unique one is recorded in the solution and assigned. -/
def scanNeighborhoods : ℕ → List (List Cell) → ℕ → EState → Res EState
  | _, [], _, st => .ok st
  | f, nb :: nbs, d, st =>
    let ps := nb.filter fun q => decide (d ∈ st.1 q)
    if ps.length = 0 then .contra
    else if ps.length = 1 then
      match ps with
      | q :: _ =>
        match assign f q.1 q.2 d (st.1, updS st.2 q d) with
        | .ok st2 => scanNeighborhoods f nbs d st2
        | .contra => .contra
        | .fuelOut => .fuelOut
      | [] => .contra
    else scanNeighborhoods f nbs d st
termination_by f nbs _ _ => (f, nbs.length + 1)

/-- Python `Sudoku.assign(row, col, digit, possibilities, solution)`: record
the digit in the solution and eliminate every other digit currently possible
for the cell (the set difference is computed before the loop runs; Python
iterates it in unspecified hash order, the model in ascending order). -/
def assign : ℕ → ℕ → ℕ → ℕ → EState → Res EState
  | 0, _, _, _, _ => .fuelOut
  | f + 1, r, c, d, st =>
    elimDigits f (((st.1 (r, c)) \ {d}).sort (· ≤ ·)) r c (st.1, updS st.2 (r, c) d)
termination_by f _ _ _ _ => (f, 0)

/-- The digit loop of `assign`: eliminate each listed digit from the cell in
turn, threading the state. -/
def elimDigits : ℕ → List ℕ → ℕ → ℕ → EState → Res EState
  | _, [], _, _, st => .ok st
  | f, d :: ds, r, c, st =>
    match eliminate f r c d st with
    | .ok st' => elimDigits f ds r c st'
    | .contra => .contra
    | .fuelOut => .fuelOut
termination_by f ds _ _ _ => (f, ds.length + 1)

end

/-- The number of assigned grid cells (Python: `len(sudoku)`; the dict only
ever holds keys inside the grid). -/
def boardCount (s : Board) : ℕ :=
  (gridFinset.filter fun q => (s q).isSome).card

/-- Python `Sudoku.is_solved(sudoku)`: `len(sudoku) == 81`. -/
def isSolvedB (s : Board) : Bool :=
  boardCount s == 81

/-- Python `Sudoku.get_square_with_least_possibilities(possibilities, solution)`:
row-major scan keeping the first unsolved square whose possibility count is
strictly below the running minimum (initially 10).  Python returns the empty
tuple when no square is ever selected; the model returns `none` there. -/
def getSquareWithLeastPossibilities (p : Poss) (s : Board) : Option Cell :=
  (gridCells.foldl
    (fun acc q =>
      if s q = none ∧ (p q).card < acc.2 then (some q, (p q).card) else acc)
    ((none : Option Cell), 10)).1

mutual

/-- Python `Sudoku.search(possibilities, solution)`: return the board once 81
cells are assigned, otherwise branch on the square with the fewest
possibilities.  The `none` branch of the square selection is unreachable when
the board is incomplete; Python would crash there with a non-ValueError, which
(like fuel exhaustion) propagates without being caught, so it is modelled by
`fuelOut`. -/
def search : ℕ → ℕ → Poss → Board → Res Board
  | 0, _, _, _ => .fuelOut
  | g + 1, fa, p, s =>
    if isSolvedB s then .ok s
    else
      match getSquareWithLeastPossibilities p s with
      | none => .fuelOut
      | some q => searchLoop g fa q ((p q).sort (· ≤ ·)) p s
termination_by g _ _ _ => (g, 0)

/-- The candidate loop of `search`: each trial runs `assign` on its own copy
of the `(possibilities, solution)` pair — Python deep-copies both before
mutating, so in the model every iteration starts again from the caller's
`(p, s)`.  A contradiction from the trial's `assign` or from the recursive
`search` is caught and the next candidate is tried; exhausting the candidates
re-raises (Python: the final `raise ValueError("Exhausted possibilities...")`). -/
def searchLoop : ℕ → ℕ → Cell → List ℕ → Poss → Board → Res Board
  | _, _, _, [], _, _ => .contra
  | g, fa, q, d :: ds, p, s =>
    match assign fa q.1 q.2 d (p, s) with
    | .ok st' =>
      match search g fa st'.1 st'.2 with
      | .ok b => .ok b
      | .contra => searchLoop g fa q ds p s
      | .fuelOut => .fuelOut
    | .contra => searchLoop g fa q ds p s
    | .fuelOut => .fuelOut
termination_by g _ _ ds _ _ => (g, ds.length + 1)

end

/-- Python `Sudoku.parse_sudoku_text`: positions `0..80` map row-major onto
the grid; a nonzero character becomes an assigned digit, `0` stays absent.
The input is the cleaned 81-character text, modelled as a list of naturals. -/
def parseSudokuText (t : List ℕ) : Board :=
  fun q =>
    if q.1 < 9 ∧ q.2 < 9 then
      if t.getD (q.1 * 9 + q.2) 0 = 0 then none
      else some (t.getD (q.1 * 9 + q.2) 0)
    else none

/-- Python `Sudoku.generate_initial_possibilities()`: every grid cell holds an
independent copy of the full digit set (independence is automatic for a
functional grid). -/
def generateInitialPossibilities : Poss :=
  fun q => if q.1 < 9 ∧ q.2 < 9 then digitSet else ∅

/-- Fuel given to every `assign`/`eliminate` cascade; proved sufficient below. -/
def assignFuel : ℕ := 2000

/-- Fuel bounding the depth of the `search` recursion; proved sufficient below. -/
def searchFuel : ℕ := 100

/-- The hint loop of `Sudoku.solve`: for every key of the freshly parsed board
(Python iterates a copy of the key set, in unspecified order; the model uses
row-major order), assign the digit the board currently holds there.  Errors
raised here propagate out of `solve` uncaught. -/
def hintLoop (fa : ℕ) : List Cell → EState → Res EState
  | [], st => .ok st
  | q :: qs, st =>
    match st.2 q with
    | some d =>
      match assign fa q.1 q.2 d st with
      | .ok st' => hintLoop fa qs st'
      | .contra => .contra
      | .fuelOut => .fuelOut
    | none => hintLoop fa qs st

/-- Python `Sudoku.solve()` on a parsed seed: return unchanged when the board
already has 81 keys, otherwise assign all hinted digits and, if deduction did
not finish the board, run the backtracking search.  `ok` is a normal return of
`solve`, `contra` a ValueError escaping it. -/
def solve (t : List ℕ) : Res Board :=
  let s0 := parseSudokuText t
  if isSolvedB s0 then .ok s0
  else
    match hintLoop assignFuel (gridCells.filter fun q => (s0 q).isSome)
        (generateInitialPossibilities, s0) with
    | .ok st =>
      if isSolvedB st.2 then .ok st.2
      else search searchFuel assignFuel st.1 st.2
    | .contra => .contra
    | .fuelOut => .fuelOut

/-! ### Specification-side predicates

These formalise the properties the spec asserts about boards; they are the
yardsticks the claims are measured against, not translations of code. -/

/-- Row-major index of a cell; the scan order of `all_row_col_combinations`. -/
def rmIdx (q : Cell) : ℕ := q.1 * 9 + q.2

/-- The nine cells of row `r`. -/
def rowUnit (r : ℕ) : List Cell := (List.range 9).map fun c => (r, c)

/-- The nine cells of column `c`. -/
def colUnit (c : ℕ) : List Cell := (List.range 9).map fun r => (r, c)

/-- The nine cells of the `k`-th 3×3 block. -/
def blockUnit (k : ℕ) : List Cell :=
  (List.range 9).map fun m => (k / 3 * 3 + m / 3, k % 3 * 3 + m % 3)

/-- All 27 units: 9 rows, 9 columns, 9 blocks. -/
def allUnits : List (List Cell) :=
  ((List.range 9).map rowUnit) ++ ((List.range 9).map colUnit) ++
    ((List.range 9).map blockUnit)

/-- The digits 1..9 as a list. -/
def digitList : List ℕ := [1, 2, 3, 4, 5, 6, 7, 8, 9]

/-- A total board: all 81 grid cells assigned. -/
def boardTotal (b : Board) : Prop := ∀ q ∈ gridFinset, b q ≠ none

/-- A fully valid board: every row, column and block contains each digit 1..9
exactly once. -/
def boardValid (b : Board) : Prop :=
  ∀ u ∈ allUnits, ∀ d ∈ digitList, u.countP (fun q => decide (b q = some d)) = 1

/-- The board invariant of the spec: no two distinct neighboring cells hold
the same digit. -/
def boardInv (b : Board) : Prop :=
  ∀ q ∈ gridCells, ∀ q' ∈ neighborList q.1 q.2, b q ≠ none → b q ≠ b q'

/-- Conflict-free seed text: no two equal nonzero entries sit at positions
whose cells are neighbors. -/
def conflictFree (t : List ℕ) : Prop :=
  ∀ i ∈ List.range 81, ∀ j ∈ List.range 81,
    t.getD i 0 ≠ 0 → t.getD i 0 = t.getD j 0 →
      (j / 9, j % 9) ∈ neighborList (i / 9) (i % 9) → False

/-- Total number of remaining possibilities over the grid; the termination
measure of the propagation cascade. -/
def totalPoss (p : Poss) : ℕ := ∑ q ∈ gridFinset, (p q).card

/-- Monotonicity relation between engine states: possibility sets only ever
shrink, assigned cells never become unassigned. -/
def stepMono (st st' : EState) : Prop :=
  (∀ q, st'.1 q ⊆ st.1 q) ∧ (∀ q, st.2 q ≠ none → st'.2 q ≠ none)

instance (b : Board) : Decidable (boardTotal b) := by
  unfold boardTotal; infer_instance

instance (b : Board) : Decidable (boardValid b) := by
  unfold boardValid; infer_instance

instance (b : Board) : Decidable (boardInv b) := by
  unfold boardInv; infer_instance

instance (t : List ℕ) : Decidable (conflictFree t) := by
  unfold conflictFree; infer_instance

/-- Monotonicity statement for `eliminate` at a given fuel. -/
def elimMonoAt (f : ℕ) : Prop :=
  ∀ r c d st st', eliminate f r c d st = .ok st' → stepMono st st'

/-- Monotonicity statement for `assign` at a given fuel. -/
def assignMonoAt (f : ℕ) : Prop :=
  ∀ r c d st st', assign f r c d st = .ok st' → stepMono st st'

/-- Fuel sufficiency statement for `eliminate` at a given fuel. -/
def elimFuelAt (f : ℕ) : Prop :=
  ∀ r c d p s, (r, c) ∈ gridFinset → 2 * totalPoss p + 2 ≤ f →
    eliminate f r c d (p, s) ≠ .fuelOut

/-- Fuel sufficiency statement for `assign` at a given fuel. -/
def assignFuelAt (f : ℕ) : Prop :=
  ∀ r c d p s, (r, c) ∈ gridFinset → 2 * totalPoss p + 3 ≤ f →
    assign f r c d (p, s) ≠ .fuelOut

/-- Invariant carried through the row-major scan of
`get_square_with_least_possibilities`. -/
def gsInv (p : Poss) (s : Board) (scanned : List Cell)
    (acc : Option Cell × ℕ) : Prop :=
  (acc.1 = none → acc.2 = 10 ∧ ∀ q ∈ scanned, s q = none → 10 ≤ (p q).card) ∧
  (∀ qb, acc.1 = some qb → qb ∈ scanned ∧ s qb = none ∧ acc.2 = (p qb).card ∧
    (∀ q ∈ scanned, s q = none → (p qb).card ≤ (p q).card) ∧
    (∀ q ∈ scanned, s q = none → (p q).card = (p qb).card → rmIdx qb ≤ rmIdx q))

/-- Whether one candidate trial of the search fails: its `assign` raises a
contradiction, or succeeds and the recursive `search` on the trial's state
raises a contradiction. -/
def trialFails (g fa : ℕ) (q : Cell) (d : ℕ) (p : Poss) (s : Board) : Bool :=
  match assign fa q.1 q.2 d (p, s) with
  | .contra => true
  | .fuelOut => false
  | .ok st' =>
    match search g fa st'.1 st'.2 with
    | .contra => true
    | .ok _ => false
    | .fuelOut => false

/-! ### Concrete seeds and states used as evidence -/

/-- The board with no assignments. -/
def blankBoard : Board := fun _ => none

/-- The all-blank 81-character seed. -/
def blankSeed : List ℕ := List.replicate 81 0

/-- The seed consisting of 81 copies of the digit 1: a complete board that
violates every row, column and block constraint. -/
def allOnesSeed : List ℕ := List.replicate 81 1

/-- The seed consisting of 81 copies of the digit 2. -/
def allTwosSeed : List ℕ := List.replicate 81 2

/-- A seed with two 5s in the first two cells of row 0: its givens conflict. -/
def conflictSeed : List ℕ := 5 :: 5 :: List.replicate 79 0

/-- A complete, fully valid board as an 81-digit seed. -/
def solvedSeed : List ℕ :=
  [1, 2, 3, 4, 5, 6, 7, 8, 9,
   4, 5, 6, 7, 8, 9, 1, 2, 3,
   7, 8, 9, 1, 2, 3, 4, 5, 6,
   2, 3, 4, 5, 6, 7, 8, 9, 1,
   5, 6, 7, 8, 9, 1, 2, 3, 4,
   8, 9, 1, 2, 3, 4, 5, 6, 7,
   3, 4, 5, 6, 7, 8, 9, 1, 2,
   6, 7, 8, 9, 1, 2, 3, 4, 5,
   9, 1, 2, 3, 4, 5, 6, 7, 8]

/-- A possibility grid whose cell (0,0) holds only the digit 5. -/
def singletonPoss : Poss :=
  fun q => if q = ((0 : ℕ), (0 : ℕ)) then {5} else digitSet

/-- A possibility grid where cell (0,0) can hold 1, 2 or 5 but no other cell
of row 0 can hold 5. -/
def rowGapPoss : Poss :=
  fun q =>
    if q = ((0 : ℕ), (0 : ℕ)) then {1, 2, 5}
    else if q.1 = 0 then {1, 2} else digitSet

/-- A possibility grid whose cell (0,0) holds only the digit 2, so that
assigning 1 there contradicts immediately. -/
def trialPoss : Poss :=
  fun q => if q = ((0 : ℕ), (0 : ℕ)) then {2} else digitSet

/-! ### Grid membership lemmas -/

theorem mem_gridCells {q : Cell} : q ∈ gridCells ↔ q.1 < 9 ∧ q.2 < 9 := by
  obtain ⟨a, b⟩ := q
  simp only [gridCells, List.mem_flatMap, List.mem_map, List.mem_range]
  constructor
  · rintro ⟨r, hr, c, hc, h⟩
    obtain ⟨rfl, rfl⟩ := Prod.mk.injEq .. ▸ h
    exact ⟨hr, hc⟩
  · rintro ⟨ha, hb⟩
    exact ⟨a, ha, b, hb, rfl⟩

theorem mem_gridFinset {q : Cell} : q ∈ gridFinset ↔ q.1 < 9 ∧ q.2 < 9 := by
  rw [gridFinset, List.mem_toFinset]; exact mem_gridCells

theorem mem_rowNeighborhood {x y r c : ℕ} :
    (x, y) ∈ rowNeighborhood r c ↔ x = r ∧ y < 9 ∧ y ≠ c := by
  simp only [rowNeighborhood, List.mem_map, List.mem_filter, List.mem_range,
    decide_eq_true_eq]
  constructor
  · rintro ⟨i, ⟨hi, hic⟩, h⟩
    obtain ⟨rfl, rfl⟩ := Prod.mk.injEq .. ▸ h
    exact ⟨rfl, hi, hic⟩
  · rintro ⟨rfl, hy, hyc⟩
    exact ⟨y, ⟨hy, hyc⟩, rfl⟩

theorem mem_colNeighborhood {x y r c : ℕ} :
    (x, y) ∈ colNeighborhood r c ↔ y = c ∧ x < 9 ∧ x ≠ r := by
  simp only [colNeighborhood, List.mem_map, List.mem_filter, List.mem_range,
    decide_eq_true_eq]
  constructor
  · rintro ⟨i, ⟨hi, hir⟩, h⟩
    obtain ⟨rfl, rfl⟩ := Prod.mk.injEq .. ▸ h
    exact ⟨rfl, hi, hir⟩
  · rintro ⟨rfl, hx, hxr⟩
    exact ⟨x, ⟨hx, hxr⟩, rfl⟩

theorem mem_blockNeighborhood {x y r c : ℕ} :
    (x, y) ∈ blockNeighborhood r c ↔
      (∃ i < 3, ∃ j < 3, x = r / 3 * 3 + i ∧ y = c / 3 * 3 + j) ∧
        (x, y) ≠ (r, c) := by
  simp only [blockNeighborhood, List.mem_filter, List.mem_flatMap, List.mem_map,
    List.mem_range, decide_eq_true_eq]
  constructor
  · rintro ⟨⟨i, hi, j, hj, h⟩, hne⟩
    obtain ⟨rfl, rfl⟩ := Prod.mk.injEq .. ▸ h
    exact ⟨⟨i, hi, j, hj, rfl, rfl⟩, hne⟩
  · rintro ⟨⟨i, hi, j, hj, rfl, rfl⟩, hne⟩
    exact ⟨⟨i, hi, j, hj, rfl⟩, hne⟩

theorem neighborList_subset_grid {r c : ℕ} (h : (r, c) ∈ gridFinset) :
    ∀ n ∈ neighborList r c, n ∈ gridFinset := by
  obtain ⟨hr, hc⟩ := mem_gridFinset.mp h
  intro n hn
  obtain ⟨x, y⟩ := n
  rw [neighborList, List.mem_dedup, List.mem_append, List.mem_append] at hn
  rw [mem_gridFinset]
  rcases hn with (hn | hn) | hn
  · obtain ⟨rfl, hy, -⟩ := mem_rowNeighborhood.mp hn
    exact ⟨hr, hy⟩
  · obtain ⟨rfl, hx, -⟩ := mem_colNeighborhood.mp hn
    exact ⟨hx, hc⟩
  · obtain ⟨⟨i, hi, j, hj, rfl, rfl⟩, -⟩ := mem_blockNeighborhood.mp hn
    constructor <;> [skip; skip] <;> omega

theorem neighborhoods_subset_grid {r c : ℕ} (h : (r, c) ∈ gridFinset) :
    ∀ nb ∈ neighborhoods r c, ∀ q ∈ nb, q ∈ gridFinset := by
  obtain ⟨hr, hc⟩ := mem_gridFinset.mp h
  intro nb hnb q hq
  obtain ⟨x, y⟩ := q
  rw [mem_gridFinset]
  rw [neighborhoods] at hnb
  simp only [List.mem_cons, List.mem_singleton, List.not_mem_nil, or_false] at hnb
  rcases hnb with rfl | rfl | rfl
  · obtain ⟨rfl, hy, -⟩ := mem_rowNeighborhood.mp hq
    exact ⟨hr, hy⟩
  · obtain ⟨rfl, hx, -⟩ := mem_colNeighborhood.mp hq
    exact ⟨hx, hc⟩
  · obtain ⟨⟨i, hi, j, hj, rfl, rfl⟩, -⟩ := mem_blockNeighborhood.mp hq
    constructor <;> [skip; skip] <;> omega

/-! ### Update and measure lemmas -/

theorem updP_self (p : Poss) (q : Cell) (v : Finset ℕ) : updP p q v q = v := by
  simp [updP]

theorem updP_other (p : Poss) (q q' : Cell) (v : Finset ℕ) (h : q' ≠ q) :
    updP p q v q' = p q' := by
  simp [updP, h]

theorem updS_self (s : Board) (q : Cell) (d : ℕ) : updS s q d q = some d := by
  simp [updS]

theorem totalPoss_mono {p p' : Poss} (h : ∀ q, p' q ⊆ p q) :
    totalPoss p' ≤ totalPoss p :=
  Finset.sum_le_sum fun q _ => Finset.card_le_card (h q)

theorem totalPoss_update_remove {p : Poss} {q0 : Cell} {d : ℕ}
    (hq : q0 ∈ gridFinset) (hd : d ∈ p q0) :
    totalPoss (updP p q0 (p q0 \ {d})) + 1 = totalPoss p := by
  unfold totalPoss
  rw [← Finset.sum_erase_add _ _ hq, ← Finset.sum_erase_add _ (fun q => (p q).card) hq]
  have h1 : ∀ q ∈ gridFinset.erase q0,
      (updP p q0 (p q0 \ {d}) q).card = (p q).card := by
    intro q hq'
    rw [updP_other _ _ _ _ (Finset.ne_of_mem_erase hq')]
  rw [Finset.sum_congr rfl h1, updP_self]
  have h2 : (p q0 \ {d}).card + 1 = (p q0).card := by
    rw [Finset.card_sdiff (Finset.singleton_subset_iff.mpr hd), Finset.card_singleton]
    have := Finset.card_pos.mpr ⟨d, hd⟩
    omega
  omega

theorem updS_preserves_totalPoss (p : Poss) (s : Board) (q : Cell) (d : ℕ) :
    totalPoss ((p, updS s q d) : EState).1 = totalPoss p := rfl

/-! ### Monotonicity of the propagation cascade -/

theorem stepMono_refl (st : EState) : stepMono st st :=
  ⟨fun _ => subset_rfl, fun _ h => h⟩

theorem stepMono_trans {a b c : EState} (h1 : stepMono a b) (h2 : stepMono b c) :
    stepMono a c :=
  ⟨fun q => (h2.1 q).trans (h1.1 q), fun q h => h2.2 q (h1.2 q h)⟩

theorem stepMono_updS (p : Poss) (s : Board) (q : Cell) (d : ℕ) :
    stepMono (p, s) (p, updS s q d) := by
  refine ⟨fun _ => subset_rfl, fun q' h => ?_⟩
  by_cases hq : q' = q
  · simp [updS, hq]
  · simpa [updS, hq] using h

theorem stepMono_updP_sub {p : Poss} {q0 : Cell} {v : Finset ℕ} (h : v ⊆ p q0)
    (s : Board) : stepMono (p, s) (updP p q0 v, s) := by
  refine ⟨fun q' => ?_, fun _ hq => hq⟩
  by_cases hq : q' = q0
  · simpa [updP, hq] using h
  · simp only [updP, if_neg hq]
    exact subset_rfl

theorem elimNeighbors_mono_of {f : ℕ} (He : elimMonoAt f) :
    ∀ ns r c st st', elimNeighbors f ns r c st = .ok st' → stepMono st st' := by
  intro ns
  induction ns with
  | nil =>
    intro r c st st' h
    simp only [elimNeighbors, Res.ok.injEq] at h
    exact h ▸ stepMono_refl st
  | cons n ns ih =>
    intro r c st st' h
    simp only [elimNeighbors] at h
    split at h
    · split at h
      · next st1 heq =>
        exact stepMono_trans (He _ _ _ _ _ heq) (ih _ _ _ _ h)
      · simp at h
      · simp at h
    · simp at h

theorem scanNeighborhoods_mono_of {f : ℕ} (Ha : assignMonoAt f) :
    ∀ nbs d st st', scanNeighborhoods f nbs d st = .ok st' → stepMono st st' := by
  intro nbs
  induction nbs with
  | nil =>
    intro d st st' h
    simp only [scanNeighborhoods, Res.ok.injEq] at h
    exact h ▸ stepMono_refl st
  | cons nb nbs ih =>
    intro d st st' h
    simp only [scanNeighborhoods] at h
    split at h
    · simp at h
    · split at h
      · split at h
        · next ps q rest heq =>
          split at h
          · next st2 heq2 =>
            have h1 : stepMono st (st.1, updS st.2 q d) := stepMono_updS _ _ _ _
            exact stepMono_trans h1
              (stepMono_trans (Ha _ _ _ _ _ heq2) (ih _ _ _ h))
          · simp at h
          · simp at h
        · simp at h
      · exact ih _ _ _ h

theorem elimDigits_mono_of {f : ℕ} (He : elimMonoAt f) :
    ∀ ds r c st st', elimDigits f ds r c st = .ok st' → stepMono st st' := by
  intro ds
  induction ds with
  | nil =>
    intro r c st st' h
    simp only [elimDigits, Res.ok.injEq] at h
    exact h ▸ stepMono_refl st
  | cons d ds ih =>
    intro r c st st' h
    simp only [elimDigits] at h
    split at h
    · next st1 heq =>
      exact stepMono_trans (He _ _ _ _ _ heq) (ih _ _ _ _ h)
    · simp at h
    · simp at h

theorem mono_pack : ∀ f, elimMonoAt f ∧ assignMonoAt f := by
  intro f
  induction f with
  | zero =>
    constructor <;> intro r c d st st' h <;> simp [eliminate, assign] at h
  | succ f ih =>
    obtain ⟨ihE, ihA⟩ := ih
    constructor
    · intro r c d st st' h
      simp only [eliminate] at h
      split at h
      · next hd =>
        split at h
        · simp at h
        · next hcard =>
          split at h
          · next st2 heq =>
            have hbase : stepMono st (updP st.1 (r, c) (st.1 (r, c) \ {d}), st.2) :=
              stepMono_updP_sub Finset.sdiff_subset st.2
            have h2 : stepMono (updP st.1 (r, c) (st.1 (r, c) \ {d}), st.2) st2 := by
              split at heq
              · exact elimNeighbors_mono_of ihE _ _ _ _ _ heq
              · simp only [Res.ok.injEq] at heq
                exact heq ▸ stepMono_refl _
            exact stepMono_trans hbase
              (stepMono_trans h2 (scanNeighborhoods_mono_of ihA _ _ _ _ h))
          · simp at h
          · simp at h
      · simp only [Res.ok.injEq] at h
        exact h ▸ stepMono_refl st
    · intro r c d st st' h
      simp only [assign] at h
      exact stepMono_trans (stepMono_updS st.1 st.2 (r, c) d)
        (elimDigits_mono_of ihE _ _ _ _ _ h)

theorem eliminate_mono {f r c d st st'} (h : eliminate f r c d st = .ok st') :
    stepMono st st' :=
  (mono_pack f).1 r c d st st' h

theorem assign_mono {f r c d st st'} (h : assign f r c d st = .ok st') :
    stepMono st st' :=
  (mono_pack f).2 r c d st st' h

theorem elimNeighbors_mono {f ns r c st st'}
    (h : elimNeighbors f ns r c st = .ok st') : stepMono st st' :=
  elimNeighbors_mono_of (mono_pack f).1 ns r c st st' h

theorem scanNeighborhoods_mono {f nbs d st st'}
    (h : scanNeighborhoods f nbs d st = .ok st') : stepMono st st' :=
  scanNeighborhoods_mono_of (mono_pack f).2 nbs d st st' h

theorem elimDigits_mono {f ds r c st st'}
    (h : elimDigits f ds r c st = .ok st') : stepMono st st' :=
  elimDigits_mono_of (mono_pack f).1 ds r c st st' h

/-! ### Fuel sufficiency: the cascade never exhausts its fuel

Each productive `eliminate` removes one possibility before recursing, so the
call depth is bounded by twice the total possibility count; with the fuel
bounds below the `fuelOut` result is unreachable, which is exactly the
termination of the Python recursion. -/

theorem elimNeighbors_fuel_of {f : ℕ} (He : elimFuelAt f) :
    ∀ ns r c st, (∀ n ∈ ns, n ∈ gridFinset) → 2 * totalPoss st.1 + 2 ≤ f →
      elimNeighbors f ns r c st ≠ .fuelOut := by
  intro ns
  induction ns with
  | nil =>
    intro r c st hg hb
    simp [elimNeighbors]
  | cons n ns ih =>
    intro r c st hg hb
    simp only [elimNeighbors]
    split
    · next hne =>
      cases hx : eliminate f n.1 n.2 ((st.1 (r, c)).min' hne) st with
      | fuelOut =>
        exact absurd hx (He n.1 n.2 _ st.1 st.2 (hg n (by simp)) hb)
      | contra => simp
      | ok st' =>
        have hm : totalPoss st'.1 ≤ totalPoss st.1 :=
          totalPoss_mono (eliminate_mono hx).1
        exact ih r c st' (fun m hm' => hg m (by simp [hm'])) (by omega)
    · simp

theorem scanNeighborhoods_fuel_of {f : ℕ} (Ha : assignFuelAt f) :
    ∀ nbs d st, (∀ nb ∈ nbs, ∀ q ∈ nb, q ∈ gridFinset) →
      2 * totalPoss st.1 + 3 ≤ f → scanNeighborhoods f nbs d st ≠ .fuelOut := by
  intro nbs
  induction nbs with
  | nil =>
    intro d st hg hb
    simp [scanNeighborhoods]
  | cons nb nbs ih =>
    intro d st hg hb
    simp only [scanNeighborhoods]
    split
    · simp
    · split
      · split
        · next ps q rest heq
          =>
          have hq : q ∈ gridFinset := by
            have : q ∈ nb.filter fun q' => decide (d ∈ st.1 q') := by
              rw [heq]; simp
            exact hg nb (by simp) q (List.mem_filter.mp this).1
          cases hx : assign f q.1 q.2 d (st.1, updS st.2 q d) with
          | fuelOut =>
            exact absurd hx (Ha q.1 q.2 d st.1 (updS st.2 q d) hq hb)
          | contra => simp
          | ok st2 =>
            have hm : totalPoss st2.1 ≤ totalPoss st.1 :=
              totalPoss_mono (assign_mono hx).1
            exact ih d st2 (fun nb' h' q' hq' => hg nb' (by simp [h']) q' hq')
              (by omega)
        · simp
      · exact ih d st (fun nb' h' q' hq' => hg nb' (by simp [h']) q' hq') hb

theorem elimDigits_fuel_of {f : ℕ} (He : elimFuelAt f) :
    ∀ ds r c st, (r, c) ∈ gridFinset → 2 * totalPoss st.1 + 2 ≤ f →
      elimDigits f ds r c st ≠ .fuelOut := by
  intro ds
  induction ds with
  | nil =>
    intro r c st hg hb
    simp [elimDigits]
  | cons d ds ih =>
    intro r c st hg hb
    simp only [elimDigits]
    cases hx : eliminate f r c d st with
    | fuelOut => exact absurd hx (He r c d st.1 st.2 hg hb)
    | contra => simp
    | ok st' =>
      have hm : totalPoss st'.1 ≤ totalPoss st.1 :=
        totalPoss_mono (eliminate_mono hx).1
      exact ih r c st' hg (by omega)

theorem fuel_pack : ∀ f, elimFuelAt f ∧ assignFuelAt f := by
  intro f
  induction f with
  | zero =>
    constructor <;> intro r c d p s hg hb <;> exact absurd hb (by omega)
  | succ f ih =>
    obtain ⟨ihE, ihA⟩ := ih
    constructor
    · intro r c d p s hg hb
      simp only [eliminate]
      split
      · next hd =>
        split
        · simp
        · next hcard0 =>
          have hrem := totalPoss_update_remove hg hd
          have hstep : ∀ st2,
              (if (updP p (r, c) (p (r, c) \ {d}) (r, c)).card = 1 then
                  elimNeighbors f (neighborList r c) r c
                    (updP p (r, c) (p (r, c) \ {d}), s)
                else .ok (updP p (r, c) (p (r, c) \ {d}), s)) = .ok st2 →
                totalPoss st2.1 ≤ totalPoss (updP p (r, c) (p (r, c) \ {d})) := by
            intro st2 hx
            split at hx
            · exact totalPoss_mono (elimNeighbors_mono hx).1
            · simp only [Res.ok.injEq] at hx
              rw [← hx]
          have hne : (if (updP p (r, c) (p (r, c) \ {d}) (r, c)).card = 1 then
              elimNeighbors f (neighborList r c) r c
                (updP p (r, c) (p (r, c) \ {d}), s)
            else .ok (updP p (r, c) (p (r, c) \ {d}), s)) ≠ .fuelOut := by
            split
            · exact elimNeighbors_fuel_of ihE _ r c _
                (neighborList_subset_grid hg) (by dsimp only; omega)
            · simp
          cases hx : (if (updP p (r, c) (p (r, c) \ {d}) (r, c)).card = 1 then
              elimNeighbors f (neighborList r c) r c
                (updP p (r, c) (p (r, c) \ {d}), s)
            else .ok (updP p (r, c) (p (r, c) \ {d}), s)) with
          | fuelOut => exact absurd hx hne
          | contra => simp
          | ok st2 =>
            have hm := hstep st2 hx
            exact scanNeighborhoods_fuel_of ihA _ d st2
              (neighborhoods_subset_grid hg) (by omega)
      · simp
    · intro r c d p s hg hb
      simp only [assign]
      exact elimDigits_fuel_of ihE _ r c _ hg (by dsimp only; omega)

theorem eliminate_fuel {f r c d p s} (hg : (r, c) ∈ gridFinset)
    (hb : 2 * totalPoss p + 2 ≤ f) : eliminate f r c d (p, s) ≠ .fuelOut :=
  (fuel_pack f).1 r c d p s hg hb

theorem assign_fuel {f r c d p s} (hg : (r, c) ∈ gridFinset)
    (hb : 2 * totalPoss p + 3 ≤ f) : assign f r c d (p, s) ≠ .fuelOut :=
  (fuel_pack f).2 r c d p s hg hb

/-! ### Board count lemmas -/

theorem gridFinset_card : gridFinset.card = 81 := by decide

theorem boardCount_le (s : Board) : boardCount s ≤ 81 := by
  calc boardCount s ≤ gridFinset.card := Finset.card_filter_le _ _
    _ = 81 := gridFinset_card

theorem isSolvedB_iff {s : Board} : isSolvedB s = true ↔ boardCount s = 81 := by
  simp [isSolvedB]

theorem exists_unassigned {s : Board} (h : boardCount s < 81) :
    ∃ q ∈ gridFinset, s q = none := by
  by_contra hc
  push_neg at hc
  have hfilter : gridFinset.filter (fun q => (s q).isSome) = gridFinset :=
    Finset.filter_true_of_mem fun q hq =>
      Option.isSome_iff_ne_none.mpr (hc q hq)
  have : boardCount s = 81 := by rw [boardCount, hfilter, gridFinset_card]
  omega

theorem boardCount_lt_of {s s' : Board} (hmono : ∀ q, s q ≠ none → s' q ≠ none)
    {q0 : Cell} (hq0 : q0 ∈ gridFinset) (h0 : s q0 = none) (h1 : s' q0 ≠ none) :
    boardCount s < boardCount s' := by
  apply Finset.card_lt_card
  rw [Finset.ssubset_iff_of_subset]
  · exact ⟨q0, Finset.mem_filter.mpr ⟨hq0, Option.isSome_iff_ne_none.mpr h1⟩,
      fun hmem => by
        have := (Finset.mem_filter.mp hmem).2
        rw [h0] at this
        simp at this⟩
  · intro q hq
    obtain ⟨hqg, hqs⟩ := Finset.mem_filter.mp hq
    exact Finset.mem_filter.mpr ⟨hqg,
      Option.isSome_iff_ne_none.mpr (hmono q (Option.isSome_iff_ne_none.mp hqs))⟩

theorem assign_ok_assigned {f r c d st st'} (h : assign f r c d st = .ok st') :
    st'.2 (r, c) ≠ none := by
  cases f with
  | zero => simp [assign] at h
  | succ f =>
    simp only [assign] at h
    have hm := (elimDigits_mono h).2 (r, c)
    apply hm
    dsimp only
    rw [updS_self]
    simp

/-! ### The MRV square selection -/

theorem gsFold (p : Poss) (s : Board) :
    ∀ l scanned acc,
      (∀ a ∈ scanned, ∀ b ∈ l, rmIdx a < rmIdx b) →
      l.Pairwise (fun a b => rmIdx a < rmIdx b) →
      gsInv p s scanned acc →
      gsInv p s (scanned ++ l)
        (l.foldl
          (fun acc q =>
            if s q = none ∧ (p q).card < acc.2 then (some q, (p q).card) else acc)
          acc) := by
  intro l
  induction l with
  | nil =>
    intro scanned acc _ _ h
    simpa using h
  | cons q l ih =>
    intro scanned acc hcross hpw hinv
    simp only [List.foldl_cons]
    have hpwl := (List.pairwise_cons.mp hpw).2
    have hqall := (List.pairwise_cons.mp hpw).1
    have hcross' : ∀ a ∈ scanned ++ [q], ∀ b ∈ l, rmIdx a < rmIdx b := by
      intro a ha b hb
      rcases List.mem_append.mp ha with ha | ha
      · exact hcross a ha b (by simp [hb])
      · rw [List.mem_singleton.mp ha]
        exact hqall b hb
    have hinv' : gsInv p s (scanned ++ [q])
        (if s q = none ∧ (p q).card < acc.2 then (some q, (p q).card) else acc) := by
      by_cases hcond : s q = none ∧ (p q).card < acc.2
      · rw [if_pos hcond]
        constructor
        · intro h; simp at h
        · intro qb hqb
          simp only [Option.some.injEq] at hqb
          subst hqb
          refine ⟨by simp, hcond.1, rfl, ?_, ?_⟩
          · intro q' hq' hnone
            rcases List.mem_append.mp hq' with hq' | hq'
            · rcases hacc : acc.1 with - | qb0
              · obtain ⟨h10, hall⟩ := hinv.1 hacc
                have := hall q' hq' hnone
                have := hcond.2
                omega
              · obtain ⟨-, -, hsnd, hmin, -⟩ := hinv.2 qb0 hacc
                have := hmin q' hq' hnone
                have := hcond.2
                omega
            · rw [List.mem_singleton.mp hq']
          · intro q' hq' hnone hcardeq
            rcases List.mem_append.mp hq' with hq' | hq'
            · exfalso
              rcases hacc : acc.1 with - | qb0
              · obtain ⟨h10, hall⟩ := hinv.1 hacc
                have := hall q' hq' hnone
                have := hcond.2
                omega
              · obtain ⟨-, -, hsnd, hmin, -⟩ := hinv.2 qb0 hacc
                have := hmin q' hq' hnone
                have := hcond.2
                omega
            · rw [List.mem_singleton.mp hq']
      · rw [if_neg hcond]
        constructor
        · intro h
          obtain ⟨h10, hall⟩ := hinv.1 h
          refine ⟨h10, ?_⟩
          intro q' hq' hnone
          rcases List.mem_append.mp hq' with hq' | hq'
          · exact hall q' hq' hnone
          · rw [List.mem_singleton.mp hq'] at hnone ⊢
            have : ¬((p q).card < acc.2) := fun hlt => hcond ⟨hnone, hlt⟩
            omega
        · intro qb hqb
          obtain ⟨hmem, hnone, hsnd, hmin, htie⟩ := hinv.2 qb hqb
          refine ⟨List.mem_append.mpr (.inl hmem), hnone, hsnd, ?_, ?_⟩
          · intro q' hq' hnone'
            rcases List.mem_append.mp hq' with hq' | hq'
            · exact hmin q' hq' hnone'
            · rw [List.mem_singleton.mp hq'] at hnone' ⊢
              have : ¬((p q).card < acc.2) := fun hlt => hcond ⟨hnone', hlt⟩
              omega
          · intro q' hq' hnone' hcardeq
            rcases List.mem_append.mp hq' with hq' | hq'
            · exact htie q' hq' hnone' hcardeq
            · rw [List.mem_singleton.mp hq']
              exact le_of_lt (hcross qb hmem q (by simp))
    have := ih (scanned ++ [q]) _ hcross' hpwl hinv'
    simpa [List.append_assoc] using this

theorem gridCells_pairwise_rmIdx :
    gridCells.Pairwise (fun a b => rmIdx a < rmIdx b) := by decide

theorem mem_gridCells_of_finset {q : Cell} (h : q ∈ gridFinset) : q ∈ gridCells :=
  List.mem_toFinset.mp h

theorem mem_gridFinset_of_cells {q : Cell} (h : q ∈ gridCells) : q ∈ gridFinset :=
  List.mem_toFinset.mpr h

theorem getSquare_spec {p : Poss} {s : Board}
    (hcard : ∀ q ∈ gridFinset, (p q).card ≤ 9) (hlt : boardCount s < 81) :
    ∃ q, getSquareWithLeastPossibilities p s = some q ∧ q ∈ gridFinset ∧
      s q = none ∧
      (∀ q' ∈ gridFinset, s q' = none → (p q).card ≤ (p q').card) ∧
      (∀ q' ∈ gridFinset, s q' = none → (p q').card = (p q).card →
        rmIdx q ≤ rmIdx q') := by
  have h0 : gsInv p s [] ((none : Option Cell), 10) :=
    ⟨fun _ => ⟨rfl, by simp⟩, fun qb h => by simp at h⟩
  have hfold := gsFold p s gridCells [] ((none : Option Cell), 10) (by simp)
    gridCells_pairwise_rmIdx h0
  rw [List.nil_append] at hfold
  unfold getSquareWithLeastPossibilities
  cases hres : (gridCells.foldl
      (fun acc q =>
        if s q = none ∧ (p q).card < acc.2 then (some q, (p q).card) else acc)
      ((none : Option Cell), 10)).1 with
  | none =>
    exfalso
    obtain ⟨-, hall⟩ := hfold.1 hres
    obtain ⟨q0, hq0, hq0none⟩ := exists_unassigned hlt
    have := hall q0 (mem_gridCells_of_finset hq0) hq0none
    have := hcard q0 hq0
    omega
  | some qb =>
    obtain ⟨hmem, hnone, -, hmin, htie⟩ := hfold.2 qb hres
    exact ⟨qb, rfl, mem_gridFinset_of_cells hmem, hnone,
      fun q' hq' hn => hmin q' (mem_gridCells_of_finset hq') hn,
      fun q' hq' hn hc => htie q' (mem_gridCells_of_finset hq') hn hc⟩

/-! ### Fuel sufficiency of the search -/

theorem search_fuel : ∀ g fa p s,
    (∀ q ∈ gridFinset, (p q).card ≤ 9) →
    2 * totalPoss p + 3 ≤ fa →
    81 - boardCount s < g →
    search g fa p s ≠ .fuelOut := by
  intro g
  induction g with
  | zero =>
    intro fa p s _ _ h3
    exact absurd h3 (by omega)
  | succ g ih =>
    intro fa p s hcard hfa hg
    simp only [search]
    split
    · simp
    · next hsolved =>
      have hlt : boardCount s < 81 := by
        have h81 := boardCount_le s
        have : boardCount s ≠ 81 := fun hc => hsolved (isSolvedB_iff.mpr hc)
        omega
      obtain ⟨q, hq, hqgrid, hqnone, -, -⟩ := getSquare_spec hcard hlt
      rw [hq]
      have hloop : ∀ ds, searchLoop g fa q ds p s ≠ .fuelOut := by
        intro ds
        induction ds with
        | nil => simp [searchLoop]
        | cons d ds ihd =>
          simp only [searchLoop]
          cases hx : assign fa q.1 q.2 d (p, s) with
          | fuelOut => exact absurd hx (assign_fuel hqgrid hfa)
          | contra =>
            dsimp only
            exact ihd
          | ok st' =>
            dsimp only
            cases hs : search g fa st'.1 st'.2 with
            | ok b => simp
            | contra =>
              dsimp only
              exact ihd
            | fuelOut =>
              exfalso
              refine ih fa st'.1 st'.2 ?_ ?_ ?_ hs
              · intro q' hq'
                have h1 := Finset.card_le_card ((assign_mono hx).1 q')
                dsimp only at h1
                have h2 := hcard q' hq'
                omega
              · have h1 := totalPoss_mono (assign_mono hx).1
                dsimp only at h1
                omega
              · have hstep := boardCount_lt_of (assign_mono hx).2 hqgrid hqnone
                  (assign_ok_assigned hx)
                dsimp only at hstep
                have := boardCount_le s
                omega
      exact hloop _

/-! ### Fuel sufficiency of solve -/

theorem totalPoss_initial : totalPoss generateInitialPossibilities = 729 := by
  decide

theorem card_initial : ∀ q ∈ gridFinset, (generateInitialPossibilities q).card ≤ 9 := by
  decide

theorem hintLoop_fuel (fa : ℕ) :
    ∀ cells st, (∀ q ∈ cells, q ∈ gridFinset) → 2 * totalPoss st.1 + 3 ≤ fa →
      hintLoop fa cells st ≠ .fuelOut ∧
        ∀ st', hintLoop fa cells st = .ok st' → stepMono st st' := by
  intro cells
  induction cells with
  | nil =>
    intro st _ _
    refine ⟨by simp [hintLoop], fun st' h => ?_⟩
    simp only [hintLoop, Res.ok.injEq] at h
    exact h ▸ stepMono_refl st
  | cons q qs ih =>
    intro st hg hb
    simp only [hintLoop]
    cases hd : st.2 q with
    | none =>
      dsimp only
      exact ih st (fun q' hq' => hg q' (by simp [hq'])) hb
    | some d =>
      dsimp only
      cases hx : assign fa q.1 q.2 d st with
      | fuelOut =>
        exfalso
        exact assign_fuel (hg q (by simp)) hb hx
      | contra =>
        dsimp only
        exact ⟨by simp, fun st' h => by simp at h⟩
      | ok st1 =>
        dsimp only
        have hm := assign_mono hx
        have hrest := ih st1 (fun q' hq' => hg q' (by simp [hq']))
          (by have := totalPoss_mono hm.1; omega)
        exact ⟨hrest.1, fun st' h => stepMono_trans hm (hrest.2 st' h)⟩

theorem solve_no_fuelOut (t : List ℕ) : solve t ≠ .fuelOut := by
  simp only [solve]
  split
  · simp
  · have hcells : ∀ q ∈ gridCells.filter (fun q => (parseSudokuText t q).isSome),
        q ∈ gridFinset := fun q hq =>
      mem_gridFinset_of_cells (List.mem_filter.mp hq).1
    have hstart : 2 * totalPoss (generateInitialPossibilities, parseSudokuText t).1
        + 3 ≤ assignFuel := by
      dsimp only
      rw [totalPoss_initial, assignFuel]
      omega
    have hl := hintLoop_fuel assignFuel _
      (generateInitialPossibilities, parseSudokuText t) hcells hstart
    cases hres : hintLoop assignFuel
        (gridCells.filter fun q => (parseSudokuText t q).isSome)
        (generateInitialPossibilities, parseSudokuText t) with
    | fuelOut => exact absurd hres hl.1
    | contra => simp
    | ok st =>
      dsimp only
      split
      · simp
      · apply search_fuel
        · intro q hq
          have h1 := Finset.card_le_card ((hl.2 st hres).1 q)
          have h2 := card_initial q hq
          dsimp only at h1
          omega
        · have h1 := totalPoss_mono (hl.2 st hres).1
          rw [totalPoss_initial] at h1
          rw [assignFuel]
          omega
        · rw [searchFuel]
          have := boardCount_le st.2
          omega

/-- A solver run on a seed whose parsed board already has 81 assigned cells
returns that board unchanged: the completeness test is purely the key count. -/
theorem solve_of_solved {t : List ℕ}
    (h : isSolvedB (parseSudokuText t) = true) :
    solve t = .ok (parseSudokuText t) := by
  simp only [solve]
  rw [if_pos h]

/-! ### The two contradiction conditions of eliminate -/

theorem eliminate_contra_of_empty {f r c d : ℕ} {p : Poss} {s : Board}
    (hd : d ∈ p (r, c)) (hsub : p (r, c) ⊆ {d}) :
    eliminate (f + 1) r c d (p, s) = .contra := by
  simp only [eliminate]
  rw [if_pos hd]
  have hempty : p (r, c) \ {d} = ∅ := by
    rwa [Finset.sdiff_eq_empty_iff_subset]
  rw [updP_self, hempty]
  simp

theorem scanNeighborhoods_not_ok {f d : ℕ} {p1 : Poss} :
    ∀ nbs st, (∀ q, st.1 q ⊆ p1 q) →
      (∃ nb ∈ nbs, ∀ q ∈ nb, d ∉ p1 q) →
      ∀ b, scanNeighborhoods f nbs d st ≠ .ok b := by
  intro nbs
  induction nbs with
  | nil =>
    intro st _ hex b
    obtain ⟨nb, hnb, -⟩ := hex
    simp at hnb
  | cons nb0 nbs ih =>
    intro st hsub hex b
    simp only [scanNeighborhoods]
    obtain ⟨nb, hnb, hall⟩ := hex
    rcases List.mem_cons.mp hnb with rfl | hnb'
    · have hps : nb.filter (fun q => decide (d ∈ st.1 q)) = [] := by
        rw [List.filter_eq_nil_iff]
        intro q hq
        simp only [decide_eq_true_eq]
        exact fun hmem => hall q hq (hsub q hmem)
      simp [hps]
    · split
      · simp
      · split
        · split
          · next ps q rest heq =>
            cases hx : assign f q.1 q.2 d (st.1, updS st.2 q d) with
            | ok st2 =>
              dsimp only
              refine ih st2 ?_ ⟨nb, hnb', hall⟩ b
              intro q'
              have h1 := (assign_mono hx).1 q'
              dsimp only at h1
              exact h1.trans (hsub q')
            | contra => simp
            | fuelOut => simp
          · simp
        · exact ih st hsub ⟨nb, hnb', hall⟩ b

theorem eliminate_contra_of_neighborhood {f r c d : ℕ} {p : Poss} {s : Board}
    {nb : List Cell} (hg : (r, c) ∈ gridFinset) (hf : 2 * totalPoss p + 2 ≤ f)
    (hd : d ∈ p (r, c)) (hne : (p (r, c) \ {d}).Nonempty)
    (hnb : nb ∈ neighborhoods r c) (hall : ∀ q ∈ nb, d ∉ p q) :
    eliminate f r c d (p, s) = .contra := by
  have hallP1 : ∀ q ∈ nb, d ∉ updP p (r, c) (p (r, c) \ {d}) q := by
    intro q hq
    by_cases hqe : q = (r, c)
    · subst hqe
      rw [updP_self]
      simp
    · rw [updP_other _ _ _ _ hqe]
      exact hall q hq
  have hnok : ∀ b, eliminate f r c d (p, s) ≠ .ok b := by
    cases f with
    | zero =>
      intro b
      simp [eliminate]
    | succ f =>
      intro st'
      simp only [eliminate]
      rw [if_pos hd]
      have hcard0 : ¬(updP p (r, c) (p (r, c) \ {d}) (r, c)).card = 0 := by
        rw [updP_self]
        have := Finset.card_pos.mpr hne
        omega
      rw [if_neg hcard0]
      cases hX : (if (updP p (r, c) (p (r, c) \ {d}) (r, c)).card = 1 then
          elimNeighbors f (neighborList r c) r c
            (updP p (r, c) (p (r, c) \ {d}), s)
        else .ok (updP p (r, c) (p (r, c) \ {d}), s)) with
      | contra => simp
      | fuelOut => simp
      | ok st2 =>
        dsimp only
        refine scanNeighborhoods_not_ok _ st2 ?_ ⟨nb, hnb, hallP1⟩ st'
        intro q'
        split at hX
        · have h1 := (elimNeighbors_mono hX).1 q'
          dsimp only at h1
          exact h1
        · simp only [Res.ok.injEq] at hX
          rw [← hX]
  have hfe : eliminate f r c d (p, s) ≠ .fuelOut := eliminate_fuel hg hf
  cases hres : eliminate f r c d (p, s) with
  | ok b => exact absurd hres (hnok b)
  | contra => rfl
  | fuelOut => exact absurd hres hfe

/-- Assigning a digit to a cell whose possibility set is a different
singleton raises a contradiction: the single leftover digit is eliminated and
empties the set. -/
theorem assign_contra_of_singleton_other {f r c x d : ℕ} {p : Poss} {s : Board}
    (hf : 2 ≤ f) (hx : p (r, c) = {x}) (hne : d ≠ x) :
    assign f r c d (p, s) = .contra := by
  obtain ⟨f', rfl⟩ : ∃ f', f = f' + 2 := ⟨f - 2, by omega⟩
  show assign (f' + 1 + 1) r c d (p, s) = .contra
  simp only [assign]
  have hdiff : p (r, c) \ {d} = {x} := by
    rw [hx]
    ext y
    simp only [Finset.mem_sdiff, Finset.mem_singleton]
    constructor
    · exact fun hy => hy.1
    · intro hy
      exact ⟨hy, fun hyd => hne (by omega)⟩
  rw [hdiff, Finset.sort_singleton]
  simp only [elimDigits]
  rw [eliminate_contra_of_empty (f := f') (by rw [hx]; exact Finset.mem_singleton_self x)
    (by rw [hx])]

/-! ### The board invariant at the seeding step -/

theorem parse_eval {t : List ℕ} {a b : ℕ} (ha : a < 9) (hb : b < 9) :
    parseSudokuText t (a, b) =
      if t.getD (a * 9 + b) 0 = 0 then none
      else some (t.getD (a * 9 + b) 0) := by
  simp [parseSudokuText, ha, hb]

theorem seeded_inv_iff (t : List ℕ) :
    boardInv (parseSudokuText t) ↔ conflictFree t := by
  constructor
  · intro hinv i hi j hj hiz heq hnbr
    rw [List.mem_range] at hi hj
    have hi9 : i / 9 < 9 := by omega
    have hi9' : i % 9 < 9 := by omega
    have hj9 : j / 9 < 9 := by omega
    have hj9' : j % 9 < 9 := by omega
    have hqi : ((i / 9, i % 9) : Cell) ∈ gridCells := mem_gridCells.mpr ⟨hi9, hi9'⟩
    have hbi : parseSudokuText t (i / 9, i % 9) = some (t.getD i 0) := by
      rw [parse_eval hi9 hi9']
      have he : i / 9 * 9 + i % 9 = i := by omega
      rw [he, if_neg hiz]
    have hjz : t.getD j 0 ≠ 0 := heq ▸ hiz
    have hbj : parseSudokuText t (j / 9, j % 9) = some (t.getD j 0) := by
      rw [parse_eval hj9 hj9']
      have he : j / 9 * 9 + j % 9 = j := by omega
      rw [he, if_neg hjz]
    have hcontra := hinv (i / 9, i % 9) hqi (j / 9, j % 9) hnbr (by rw [hbi]; simp)
    apply hcontra
    rw [hbi, hbj, heq]
  · intro hcf q hq q' hq' hnone heqv
    obtain ⟨a, b⟩ := q
    obtain ⟨a', b'⟩ := q'
    obtain ⟨ha, hb⟩ := mem_gridCells.mp hq
    have hgrid' := neighborList_subset_grid (mem_gridFinset_of_cells hq) _ hq'
    obtain ⟨ha', hb'⟩ := mem_gridFinset.mp hgrid'
    have hiz : t.getD (a * 9 + b) 0 ≠ 0 := by
      intro h0
      rw [parse_eval ha hb, if_pos h0] at hnone
      exact hnone rfl
    have hvi : parseSudokuText t (a, b) = some (t.getD (a * 9 + b) 0) := by
      rw [parse_eval ha hb, if_neg hiz]
    have hvj : parseSudokuText t (a', b') = some (t.getD (a * 9 + b) 0) := by
      rw [← heqv, hvi]
    have hjeq : t.getD (a' * 9 + b') 0 = t.getD (a * 9 + b) 0 := by
      rw [parse_eval ha' hb'] at hvj
      by_cases h0 : t.getD (a' * 9 + b') 0 = 0
      · rw [if_pos h0] at hvj
        simp at hvj
      · rw [if_neg h0] at hvj
        simpa using hvj
    refine hcf (a * 9 + b) ?_ (a' * 9 + b') ?_ hiz (by rw [hjeq]) ?_
    · rw [List.mem_range]; omega
    · rw [List.mem_range]; omega
    · have e1 : (a * 9 + b) / 9 = a := by omega
      have e2 : (a * 9 + b) % 9 = b := by omega
      have e3 : (a' * 9 + b') / 9 = a' := by omega
      have e4 : (a' * 9 + b') % 9 = b' := by omega
      rw [e1, e2, e3, e4]
      exact hq'

/-! ### Claim theorems -/

/-- Claim C1 (evidence of the divergence): on the seed of 81 ones, `solve`
returns normally with the board unchanged — a total board in which no row,
column or block contains the digits 1-9 exactly once.  The claim that every
normal return of `solve` yields a fully valid board is therefore violated by
the code: the `is_solved` early return checks only the key count. -/
theorem C1_unsound_return_on_invalid_complete_seed :
    solve allOnesSeed = .ok (parseSudokuText allOnesSeed) ∧
      boardTotal (parseSudokuText allOnesSeed) ∧
      ¬boardValid (parseSudokuText allOnesSeed) :=
  ⟨solve_of_solved (by decide), by decide, by decide⟩

/-- Claim C2 (evidence of the divergence): the seed of 81 twos has no valid
completion — every board agreeing with its givens fails the constraints — yet
`solve` returns normally instead of letting an error escape, so an error does
not escape the top level of `solve` exactly when the puzzle is unsolvable. -/
theorem C2_no_error_on_unsolvable_complete_seed :
    solve allTwosSeed = .ok (parseSudokuText allTwosSeed) ∧
      ∀ b' : Board,
        (∀ q ∈ gridFinset, parseSudokuText allTwosSeed q ≠ none →
          b' q = parseSudokuText allTwosSeed q) →
        ¬boardValid b' := by
  constructor
  · exact solve_of_solved (by decide)
  · intro b' hext hval
    have hparse : ∀ q ∈ rowUnit 0, parseSudokuText allTwosSeed q = some 2 := by
      decide
    have hgrid : ∀ q ∈ rowUnit 0, q ∈ gridFinset := by decide
    have hu : rowUnit 0 ∈ allUnits := by decide
    have hd1 : (1 : ℕ) ∈ digitList := by decide
    have hcount := hval (rowUnit 0) hu 1 hd1
    have hzero : (rowUnit 0).countP (fun q => decide (b' q = some 1)) = 0 := by
      rw [List.countP_eq_zero]
      intro q hq
      have hbq : b' q = some 2 := by
        rw [hext q (hgrid q hq) (by rw [hparse q hq]; simp)]
        exact hparse q hq
      simp [hbq]
    omega

/-- Claim C3: with the fuel bounds proved sufficient above, the solver never
exhausts its fuel on any input — the assign/eliminate cascade and the search
recursion terminate for every seed, including the fully blank one. -/
theorem C3_engine_terminates : ∀ t : List ℕ, solve t ≠ Res.fuelOut :=
  solve_no_fuelOut

set_option maxRecDepth 40000 in
/-- Claim C4 (evidence of the divergence): on the blank seed the search
branches on cell (0,0), whose candidate set holds all nine digits, so the
iteration order of the candidate trials is observable; the code iterates a
Python set copy in unspecified hash order, not in the ascending digit order
the spec mandates. -/
theorem C4_blank_seed_branch_candidates :
    getSquareWithLeastPossibilities generateInitialPossibilities
        (parseSudokuText blankSeed) = some ((0 : ℕ), (0 : ℕ)) ∧
      (generateInitialPossibilities ((0 : ℕ), (0 : ℕ))).card = 9 := by
  decide

/-- Claim C5 (counterexample): for cell (0,0) the coordinate (0,1) lies in
both the row neighborhood and the block neighborhood returned by
`find_neighbors`, and it is not the cell itself — the three neighborhoods are
not pairwise disjoint away from the cell. -/
theorem C5_neighborhoods_overlap :
    ((0, 1) : Cell) ∈ (findNeighbors 0 0).2.getD 0 ∅ ∧
      ((0, 1) : Cell) ∈ (findNeighbors 0 0).2.getD 2 ∅ ∧
      ((0, 1) : Cell) ≠ ((0, 0) : Cell) := by
  decide

set_option maxRecDepth 40000 in
/-- Claim C5 (amended): for every cell, `find_neighbors` returns three
neighborhoods of exactly 8 coordinates each; the row and column neighborhoods
are disjoint, while the block neighborhood shares exactly 2 cells with each of
them; the neighbor set equals the union of the three and has exactly 20
elements. -/
theorem C5_neighbor_structure :
    ∀ z : Fin 9 × Fin 9,
      ((findNeighbors (z.1 : ℕ) (z.2 : ℕ)).2.getD 0 ∅).card = 8 ∧
      ((findNeighbors (z.1 : ℕ) (z.2 : ℕ)).2.getD 1 ∅).card = 8 ∧
      ((findNeighbors (z.1 : ℕ) (z.2 : ℕ)).2.getD 2 ∅).card = 8 ∧
      (findNeighbors (z.1 : ℕ) (z.2 : ℕ)).2.getD 0 ∅ ∩
        (findNeighbors (z.1 : ℕ) (z.2 : ℕ)).2.getD 1 ∅ = ∅ ∧
      ((findNeighbors (z.1 : ℕ) (z.2 : ℕ)).2.getD 0 ∅ ∩
        (findNeighbors (z.1 : ℕ) (z.2 : ℕ)).2.getD 2 ∅).card = 2 ∧
      ((findNeighbors (z.1 : ℕ) (z.2 : ℕ)).2.getD 1 ∅ ∩
        (findNeighbors (z.1 : ℕ) (z.2 : ℕ)).2.getD 2 ∅).card = 2 ∧
      (findNeighbors (z.1 : ℕ) (z.2 : ℕ)).1 =
        (findNeighbors (z.1 : ℕ) (z.2 : ℕ)).2.getD 0 ∅ ∪
          (findNeighbors (z.1 : ℕ) (z.2 : ℕ)).2.getD 1 ∅ ∪
          (findNeighbors (z.1 : ℕ) (z.2 : ℕ)).2.getD 2 ∅ ∧
      (findNeighbors (z.1 : ℕ) (z.2 : ℕ)).1.card = 20 := by
  decide

/-- Claim C6: whenever the board is not complete (and the possibility sets
are genuine digit sets, of size at most 9), the square selection returns an
unassigned cell whose possibility set is smallest among all unassigned cells,
with ties broken by the first such cell in row-major order. -/
theorem C6_mrv_selection :
    ∀ (p : Poss) (s : Board),
      (∀ q ∈ gridFinset, (p q).card ≤ 9) → boardCount s < 81 →
      ∃ q, getSquareWithLeastPossibilities p s = some q ∧ q ∈ gridFinset ∧
        s q = none ∧
        (∀ q' ∈ gridFinset, s q' = none → (p q).card ≤ (p q').card) ∧
        (∀ q' ∈ gridFinset, s q' = none → (p q').card = (p q).card →
          rmIdx q ≤ rmIdx q') :=
  fun _ _ h1 h2 => getSquare_spec h1 h2

/-- Witness: the MRV selection theorem instantiated on the blank board with
the full initial possibility grid. -/
theorem C6_mrv_selection_witness :
    ∃ q, getSquareWithLeastPossibilities generateInitialPossibilities
        blankBoard = some q ∧ q ∈ gridFinset ∧ blankBoard q = none ∧
      (∀ q' ∈ gridFinset, blankBoard q' = none →
        (generateInitialPossibilities q).card ≤
          (generateInitialPossibilities q').card) ∧
      (∀ q' ∈ gridFinset, blankBoard q' = none →
        (generateInitialPossibilities q').card =
          (generateInitialPossibilities q).card → rmIdx q ≤ rmIdx q') :=
  C6_mrv_selection generateInitialPossibilities blankBoard (by decide) (by decide)

/-- Claim C8: after removing a digit that was present, `eliminate` raises a
contradiction when the cell's possibility set has become empty; and it raises
a contradiction when one of the cell's three neighborhoods has no peer that
still lists the eliminated digit as a candidate. -/
theorem C8_eliminate_contradiction_conditions :
    (∀ (f r c d : ℕ) (p : Poss) (s : Board), d ∈ p (r, c) → p (r, c) ⊆ {d} →
      eliminate (f + 1) r c d (p, s) = .contra) ∧
    (∀ (f r c d : ℕ) (p : Poss) (s : Board), ∀ nb ∈ neighborhoods r c,
      (r, c) ∈ gridFinset → 2 * totalPoss p + 2 ≤ f → d ∈ p (r, c) →
      (p (r, c) \ {d}).Nonempty → (∀ q ∈ nb, d ∉ p q) →
      eliminate f r c d (p, s) = .contra) :=
  ⟨fun _ _ _ _ _ _ hd hsub => eliminate_contra_of_empty hd hsub,
   fun _ _ _ _ _ _ _ hnb hg hf hd hne hall =>
     eliminate_contra_of_neighborhood hg hf hd hne hnb hall⟩

/-- Witness: both contradiction conditions of `eliminate` triggered on
concrete possibility grids. -/
theorem C8_eliminate_contradiction_conditions_witness :
    eliminate 1 0 0 5 (singletonPoss, blankBoard) = .contra ∧
      eliminate 2000 0 0 5 (rowGapPoss, blankBoard) = .contra :=
  ⟨C8_eliminate_contradiction_conditions.1 0 0 0 5 singletonPoss blankBoard
      (by decide) (by decide),
   C8_eliminate_contradiction_conditions.2 2000 0 0 5 rowGapPoss blankBoard
      (rowNeighborhood 0 0) (by decide) (by decide) (by decide) (by decide)
      (by decide) (by decide)⟩

/-- Claim C9: a candidate trial that ends in contradiction — either its
`assign` raises, or the recursive `search` on its state raises — leaves the
caller's `(possibilities, board)` pair untouched: the next candidate is tried
on exactly the pair the loop started from, mirroring the deep copies Python
takes before each trial. -/
theorem C9_failed_trial_keeps_parent_state :
    ∀ (g fa : ℕ) (q : Cell) (d : ℕ) (ds : List ℕ) (p : Poss) (s : Board),
      trialFails g fa q d p s = true →
      searchLoop g fa q (d :: ds) p s = searchLoop g fa q ds p s := by
  intro g fa q d ds p s h
  simp only [searchLoop]
  unfold trialFails at h
  cases hx : assign fa q.1 q.2 d (p, s) with
  | contra => dsimp only
  | fuelOut =>
    rw [hx] at h
    simp at h
  | ok st' =>
    rw [hx] at h
    dsimp only at h ⊢
    cases hs : search g fa st'.1 st'.2 with
    | contra => dsimp only
    | ok b =>
      rw [hs] at h
      simp at h
    | fuelOut =>
      rw [hs] at h
      simp at h

/-- Witness: a concrete failing trial whose surrounding candidate loop
continues from the caller's unchanged state. -/
theorem C9_failed_trial_keeps_parent_state_witness :
    searchLoop 1 2 ((0 : ℕ), (0 : ℕ)) [1] trialPoss blankBoard =
      searchLoop 1 2 ((0 : ℕ), (0 : ℕ)) [] trialPoss blankBoard :=
  C9_failed_trial_keeps_parent_state 1 2 ((0 : ℕ), (0 : ℕ)) 1 [] trialPoss
    blankBoard (by
      unfold trialFails
      dsimp only
      rw [assign_contra_of_singleton_other (x := 2) (by omega) (by decide)
        (by decide)])

/-- Claim C10: for every seed whose parsed board already has all 81 cells
assigned, `solve` returns immediately with the board unchanged; the test is
solely the count of assigned cells, with no constraint re-validation. -/
theorem C10_solve_is_noop_on_complete_board :
    ∀ t : List ℕ, isSolvedB (parseSudokuText t) = true →
      solve t = .ok (parseSudokuText t) :=
  fun _ h => solve_of_solved h

/-- Witness: `solve` is a no-op on a concrete fully assigned, constraint-valid
seed. -/
theorem C10_solve_is_noop_on_complete_board_witness :
    solve solvedSeed = .ok (parseSudokuText solvedSeed) :=
  C10_solve_is_noop_on_complete_board solvedSeed (by decide)

end SudokuModel
